import Mathlib

/-!
Verification development for the Cuban Double-9 domino engine.

The definitions below are a shallow embedding of the game logic of the
repository: the pure helpers of the game-logic module (deck generation,
tile predicates, legality, starter determination, bot move selection,
team scoring) and the state-machine transitions of the application
component (applyMove, handlePass, handleRoundEnd, the per-turn
round-end evaluation of the game loop, onUserTileClick, startGame).
Tiles are pairs of natural numbers; the JavaScript value null on the
open ends is modelled by Option. Team indices recorded in the tranque
scan are modelled as Int because the source initialises the running
winner with -1.
-/

/-- Tile models the source type Tile = [number, number], an ordered pair
whose unordered reading is handled by areTilesEqual. -/
abbrev Tile := Nat × Nat

/-- Side of the board a tile is played on. -/
inductive Side where
  | left : Side
  | right : Side
deriving DecidableEq, Repr

/-- Move models the source interface Move with fields tile and side. -/
structure Move where
  tile : Tile
  side : Side
deriving DecidableEq, Repr

/-- getTileSum from the game-logic module: tile[0] + tile[1]. -/
def getTileSum (t : Tile) : Nat := t.1 + t.2

/-- isDouble from the game-logic module: tile[0] === tile[1]. -/
def isDouble (t : Tile) : Bool := t.1 == t.2

/-- areTilesEqual from the game-logic module: both orientations checked. -/
def areTilesEqual (t1 t2 : Tile) : Bool :=
  (t1.1 == t2.1 && t1.2 == t2.2) || (t1.1 == t2.2 && t1.2 == t2.1)

/-- generateDeck from the game-logic module: all pairs (i, j) with
0 <= i <= j <= 9, in the deterministic canonical order of the two
nested loops. -/
def generateDeck : List Tile :=
  (List.range 10).flatMap (fun i => ((List.range 10).filter (fun j => i ≤ j)).map (fun j => (i, j)))

/-- getValidMoves from the game-logic module.  When either end is null
the whole hand is returned, one entry per tile with side left.  Otherwise
each tile contributes a left entry when a pip equals leftEnd and a right
entry when a pip equals rightEnd, in hand order with left pushed before
right, exactly as the forEach in the source pushes them.  The source also
fills a local uniqueTiles set that it never reads; that dead write is
omitted. -/
def getValidMoves (hand : List Tile) (leftEnd rightEnd : Option Nat) : List Move :=
  match leftEnd, rightEnd with
  | some le, some re =>
      hand.flatMap (fun t =>
        (if t.1 == le || t.2 == le then [⟨t, Side.left⟩] else []) ++
        (if t.1 == re || t.2 == re then [⟨t, Side.right⟩] else []))
  | _, _ => hand.map (fun t => ⟨t, Side.left⟩)

/-- Player models the source interface Player. -/
structure Player where
  id : Nat
  name : String
  isBot : Bool
  hand : List Tile
  team : Nat
deriving DecidableEq, Repr

/-- Fallback player used to model JavaScript array indexing in states
where the index is known to be in bounds. -/
def dfltPlayer : Player := ⟨0, "", false, [], 0⟩

/-- Hand pip total, the reduce((acc, t) => acc + getTileSum(t), 0)
pattern that the source uses for scoring and the tranque scan. -/
def handPips (hand : List Tile) : Nat :=
  hand.foldl (fun acc t => acc + getTileSum t) 0

/-- Inner seat loop of determineStarter for a fixed double target value v:
the first player in seat order whose hand contains a tile equal (as an
unordered pair) to (v, v), together with the tile found in that hand
(the source falls back to the target itself if find fails, which cannot
happen after some succeeded). -/
def findDoubleHolder : List Player → Nat → Nat → Option (Nat × Tile)
  | [], _, _ => none
  | p :: ps, idx, v =>
      if p.hand.any (fun t => areTilesEqual t (v, v)) then
        some (idx, (p.hand.find? (fun t => areTilesEqual t (v, v))).getD (v, v))
      else findDoubleHolder ps (idx + 1) v

/-- Outer double loop of determineStarter: i runs from the given value
down to 0, checking findDoubleHolder at each value. -/
def scanDoublesFrom (players : List Player) : Nat → Option (Nat × Tile)
  | 0 => findDoubleHolder players 0 0
  | n + 1 =>
      match findDoubleHolder players 0 (n + 1) with
      | some st => some st
      | none => scanDoublesFrom players n

/-- Fallback branch of determineStarter: the nested forEach over players
and hands keeping the running (highestSum, starterIndex, startTile)
triple, with highestSum initialised to -1 and a strict greater-than
comparison. -/
def highestFallback (players : List Player) : Nat × Tile :=
  let acc := players.enum.foldl (fun acc pr =>
    pr.2.hand.foldl (fun acc t =>
      if (getTileSum t : Int) > acc.1 then ((getTileSum t : Int), pr.1, t) else acc) acc)
    ((-1 : Int), 0, ((0 : Nat), (0 : Nat)))
  (acc.2.1, acc.2.2)

/-- determineStarter from the game-logic module.  The boneyard parameter
is present in the source signature but unused by its body. -/
def determineStarter (players : List Player) (boneyard : List Tile) : Nat × Tile :=
  match scanDoublesFrom players 9 with
  | some st => st
  | none =>
      let _ := boneyard
      highestFallback players

/-- Heuristic score of one candidate move inside calculateBotMove:
pip sum, plus 25 when the open-end value the move would newly expose is
in the pass history of the next player, plus 10 for a double.  The new
open end is computed exactly as in the source:
tile[0] === currentEnd ? tile[1] : tile[0], where currentEnd is the end
on the chosen side and may be null. -/
def botScore (passHistory : Nat → List Nat) (nextPlayerId : Nat)
    (leftEnd rightEnd : Option Nat) (m : Move) : Nat :=
  let currentEnd := match m.side with
    | Side.left => leftEnd
    | Side.right => rightEnd
  let newOpenEnd := if currentEnd = some m.tile.1 then m.tile.2 else m.tile.1
  getTileSum m.tile +
    (if newOpenEnd ∈ passHistory nextPlayerId then 25 else 0) +
    (if isDouble m.tile then 10 else 0)

/-- First element of the stable descending sort of the scored moves:
scoredMoves.sort((a, b) => b.score - a.score)[0].move.  JavaScript sort
is stable, so the head of the sorted list is the first-encountered move
among those of maximal score; this fold keeps the current best and
replaces it only on a strictly greater score, which computes exactly
that element. -/
def pickBest (score : Move → Nat) : Move → List Move → Move
  | best, [] => best
  | best, m :: ms => if score m > score best then pickBest score m ms else pickBest score best ms

/-- calculateBotMove from the game-logic module. -/
def calculateBotMove (hand : List Tile) (leftEnd rightEnd : Option Nat)
    (passHistory : Nat → List Nat) (nextPlayerId : Nat) : Option Move :=
  match getValidMoves hand leftEnd rightEnd with
  | [] => none
  | [m] => some m
  | m :: ms => some (pickBest (botScore passHistory nextPlayerId leftEnd rightEnd) m ms)

/-- calculateScores from the game-logic module: running (team0, team1)
pip totals, where a player with team 0 adds to the first component and
any other player adds to the second. -/
def calculateScores (players : List Player) : Nat × Nat :=
  players.foldl (fun acc p =>
    let pips := handPips p.hand
    if p.team = 0 then (acc.1 + pips, acc.2) else (acc.1, acc.2 + pips)) (0, 0)

/-- Round status from the source union type. -/
inductive Status where
  | idle : Status
  | playing : Status
  | round_over : Status
deriving DecidableEq, Repr

/-- Reason a round ended. -/
inductive Reason where
  | domino : Reason
  | tranque : Reason
deriving DecidableEq, Repr

/-- Winner record from the source GameState. -/
structure Winner where
  team : Int
  reason : Reason
  points : Nat
deriving DecidableEq, Repr

/-- GameState models the source interface GameState; passHistory maps a
player id to the list of end values the player passed on. -/
structure GameState where
  players : List Player
  board : List Tile
  boneyard : List Tile
  leftEnd : Option Nat
  rightEnd : Option Nat
  currentPlayerIndex : Nat
  status : Status
  logs : List String
  winner : Option Winner
  passHistory : Nat → List Nat

/-- getNextPlayerIndex from the application component:
(current - 1 + 4) % 4, written over Nat. -/
def getNextPlayerIndex (current : Nat) : Nat := (current + 3) % 4

/-- Textual side name used in the play log entry. -/
def sideName : Side → String
  | Side.left => "left"
  | Side.right => "right"

/-- applyMove from the application component. -/
def applyMove (s : GameState) (playerId : Nat) (tile : Tile) (side : Side) : GameState :=
  let player := (s.players.find? (fun p => p.id == playerId)).getD dfltPlayer
  let newHand := player.hand.filter (fun t => !areTilesEqual t tile)
  let newPlayers := s.players.map (fun p =>
    if p.id == playerId then { p with hand := newHand } else p)
  let log := player.name ++ " plays [" ++ toString tile.1 ++ "|" ++ toString tile.2 ++
    "] on the " ++ sideName side ++ "."
  match side with
  | Side.left =>
      let newLeft := match s.leftEnd with
        | some le => if tile.1 = le then some tile.2 else if tile.2 = le then some tile.1 else some le
        | none => none
      { s with
        players := newPlayers
        board := tile :: s.board
        leftEnd := newLeft
        currentPlayerIndex := getNextPlayerIndex s.currentPlayerIndex
        logs := s.logs ++ [log] }
  | Side.right =>
      let newRight := match s.rightEnd with
        | some re => if tile.1 = re then some tile.2 else if tile.2 = re then some tile.1 else some re
        | none => none
      { s with
        players := newPlayers
        board := s.board ++ [tile]
        rightEnd := newRight
        currentPlayerIndex := getNextPlayerIndex s.currentPlayerIndex
        logs := s.logs ++ [log] }

/-- Values a passing player failed to match: the left end when non-null,
and the right end when non-null and different from the left end. -/
def missedEnds (s : GameState) : List Nat :=
  (match s.leftEnd with
   | some le => [le]
   | none => []) ++
  (match s.rightEnd with
   | some re => if s.leftEnd = some re then [] else [re]
   | none => [])

/-- handlePass from the application component. -/
def handlePass (s : GameState) (player : Player) : GameState :=
  { s with
    currentPlayerIndex := getNextPlayerIndex s.currentPlayerIndex
    logs := s.logs ++ [player.name ++ " passes (Knock)."]
    passHistory := fun j =>
      if j = player.id then s.passHistory player.id ++ missedEnds s else s.passHistory j }

/-- handleRoundEnd from the application component: status becomes
round_over, the winner record stores the team, the reason and the pip
total of the opposing hands, and one log entry is appended. -/
def handleRoundEnd (s : GameState) (reason : Reason) (winningTeam : Int) : GameState :=
  let scores := calculateScores s.players
  let points := if winningTeam = 0 then scores.2 else scores.1
  { s with
    status := Status.round_over
    winner := some ⟨winningTeam, reason, points⟩
    logs := s.logs ++ ["Round Over via " ++ (if reason = Reason.domino then "domino" else "tranque") ++ "."] }

/-- Player at the current turn pointer, players[gameState.currentPlayerIndex]. -/
def currentPlayer (s : GameState) : Player :=
  s.players.getD s.currentPlayerIndex dfltPlayer

/-- anyValidMove check of the game loop: players.some(p =>
getValidMoves(p.hand, leftEnd, rightEnd).length > 0). -/
def anyValidMove (s : GameState) : Bool :=
  s.players.any (fun p => (getValidMoves p.hand s.leftEnd s.rightEnd).length > 0)

/-- Tranque winner scan of the game loop: running (minPips, winningTeam)
with minPips initialised to 1000 and winningTeam to -1; a strictly
smaller total takes over, and an equal total also takes over (the last
scanned tied player wins). -/
def tranqueWinningTeam (players : List Player) : Int :=
  (players.foldl (fun acc p =>
    let pips := handPips p.hand
    if pips < acc.1 then (pips, (p.team : Int))
    else if pips = acc.1 then (acc.1, (p.team : Int))
    else acc) ((1000 : Nat), (-1 : Int))).2

/-- Round-end decision of the game loop useEffect, in source order: no
decision unless status is playing; domino for the current player when
the current hand is empty; otherwise tranque with the scan winner when
no player has a valid move and the board is non-empty; otherwise none
(the loop proceeds to schedule a bot move or a pass). -/
def evaluateTurn (s : GameState) : Option (Reason × Int) :=
  if s.status ≠ Status.playing then none
  else if (currentPlayer s).hand.length = 0 then
    some (Reason.domino, ((currentPlayer s).team : Int))
  else if !anyValidMove s && s.board.length > 0 then
    some (Reason.tranque, tranqueWinningTeam s.players)
  else none

/-- One evaluation of the game loop followed by handleRoundEnd when a
round-end decision was reached; otherwise the state is unchanged. -/
def runEvaluation (s : GameState) : GameState :=
  match evaluateTurn s with
  | some (reason, team) => handleRoundEnd s reason team
  | none => s

/-- onUserTileClick from the application component.  The choice argument
models the window.confirm answer used only when the clicked tile fits
both ends and the ends differ (true plays left). -/
def onUserTileClick (choice : Bool) (s : GameState) (tile : Tile) : GameState :=
  if s.currentPlayerIndex ≠ 0 ∨ s.status ≠ Status.playing then s
  else
    match getValidMoves [tile] s.leftEnd s.rightEnd with
    | [] => s
    | [m] => applyMove s 0 tile m.side
    | _ :: _ :: _ =>
        if s.leftEnd = s.rightEnd then applyMove s 0 tile Side.left
        else applyMove s 0 tile (if choice then Side.left else Side.right)

/-- startGame from the application component, parameterised by the
already shuffled deck (shuffleDeck uses Math.random and is modelled as
an arbitrary input list).  Deals 10 tiles to each of the four seats,
keeps the remainder as boneyard, removes the start tile from the
starter by value equality, places it as the initial board, sets both
ends to its pips and hands the turn to the seat counter-clockwise from
the starter. -/
def startGame (deck : List Tile) : GameState :=
  let players : List Player := [
    ⟨0, "You", false, deck.take 10, 0⟩,
    ⟨1, "Bot 1 (Left)", true, (deck.drop 10).take 10, 1⟩,
    ⟨2, "Bot 2 (Partner)", true, (deck.drop 20).take 10, 0⟩,
    ⟨3, "Bot 3 (Right)", true, (deck.drop 30).take 10, 1⟩]
  let boneyard := deck.drop 40
  let st := determineStarter players boneyard
  let starterIndex := st.1
  let startTile := st.2
  let players' := players.map (fun p =>
    if p.id == starterIndex then
      { p with hand := p.hand.filter (fun t => !areTilesEqual t startTile) }
    else p)
  { players := players'
    board := [startTile]
    boneyard := boneyard
    leftEnd := some startTile.1
    rightEnd := some startTile.2
    currentPlayerIndex := getNextPlayerIndex starterIndex
    status := Status.playing
    logs := ["Game Started."]
    winner := none
    passHistory := fun _ => [] }

/-- Pass history with no recorded passes, the per-round reset value. -/
def emptyPassHistory : Nat → List Nat := fun _ => []

/-- chainB l board r holds when the stored board sequence, read in
storage order from index 0, forms a connected chain whose outer pip at
the front is l and whose outer pip at the back is r; each stored tile
may face either way. -/
def chainB (l : Nat) : List Tile → Nat → Bool
  | [], _ => false
  | [t], r => (t.1 == l && t.2 == r) || (t.1 == r && t.2 == l)
  | t :: u :: rest, r => (t.1 == l && chainB t.2 (u :: rest) r) || (t.2 == l && chainB t.1 (u :: rest) r)

/-- Reachable states of the round state machine, paired with the
chronological list of tiles played so far.  A round starts with
startGame on some dealt deck; a play step requires the preconditions of
the play operation (status playing, acting seat is the active seat, the
tile is in the acting hand and the move is legal against the open
ends); a pass step requires a forced pass (no legal move, non-empty
board). -/
inductive ReachableWith : GameState → List Tile → Prop
  | start (deck : List Tile) :
      ReachableWith (startGame deck) (startGame deck).board
  | play (s : GameState) (played : List Tile) (p : Player) (tile : Tile) (side : Side) :
      ReachableWith s played →
      s.status = Status.playing →
      s.players.find? (fun q => q.id == p.id) = some p →
      p.id = s.currentPlayerIndex →
      tile ∈ p.hand →
      (⟨tile, side⟩ : Move) ∈ getValidMoves p.hand s.leftEnd s.rightEnd →
      ReachableWith (applyMove s p.id tile side) (played ++ [tile])
  | pass (s : GameState) (played : List Tile) (p : Player) :
      ReachableWith s played →
      s.status = Status.playing →
      s.players.find? (fun q => q.id == p.id) = some p →
      p.id = s.currentPlayerIndex →
      getValidMoves p.hand s.leftEnd s.rightEnd = [] →
      s.board ≠ [] →
      ReachableWith (handlePass s p) played

/-! Helper lemmas shared by several claim theorems. -/

/-- Removing by a predicate shortens a list by exactly the number of
elements satisfying the predicate. -/
lemma length_filter_not_add_countP (l : List Tile) (p : Tile → Bool) :
    (l.filter (fun t => !p t)).length + l.countP p = l.length := by
  induction l with
  | nil => simp
  | cons a t ih =>
    by_cases h : p a = true <;>
      simp [List.filter_cons, List.countP_cons, h] <;> omega

/-- After filtering out the elements satisfying a predicate, none remain. -/
lemma countP_filter_not (l : List Tile) (p : Tile → Bool) :
    (l.filter (fun t => !p t)).countP p = 0 := by
  induction l with
  | nil => simp
  | cons a t ih =>
    by_cases h : p a = true <;> simp [List.filter_cons, List.countP_cons, h, ih]

/-- pickBest returns the first element of maximal score: the input
decomposes around the returned element, everything before it scores
strictly less and nothing scores more. -/
lemma pickBest_spec (score : Move → Nat) (best : Move) (ms : List Move) :
    ∃ pre post, best :: ms = pre ++ pickBest score best ms :: post ∧
      (∀ m ∈ pre, score m < score (pickBest score best ms)) ∧
      (∀ m ∈ best :: ms, score m ≤ score (pickBest score best ms)) := by
  induction ms generalizing best with
  | nil =>
    exact ⟨[], [], by simp [pickBest], by simp, by simp [pickBest]⟩
  | cons m ms ih =>
    by_cases h : score best < score m
    · have hc : pickBest score best (m :: ms) = pickBest score m ms := by
        simp [pickBest, h]
      rw [hc]
      obtain ⟨pre, post, heq, hpre, hall⟩ := ih m
      have hmle : score m ≤ score (pickBest score m ms) := hall m (by simp)
      refine ⟨best :: pre, post, ?_, ?_, ?_⟩
      · rw [List.cons_append, ← heq]
      · intro x hx
        rcases List.mem_cons.mp hx with hx | hx
        · subst hx; exact lt_of_lt_of_le h hmle
        · exact hpre x hx
      · intro x hx
        rcases List.mem_cons.mp hx with hx | hx
        · subst hx; exact le_of_lt (lt_of_lt_of_le h hmle)
        · exact hall x hx
    · have hc : pickBest score best (m :: ms) = pickBest score best ms := by
        simp [pickBest, h]
      rw [hc]
      have hmb : score m ≤ score best := Nat.le_of_not_lt h
      obtain ⟨pre, post, heq, hpre, hall⟩ := ih best
      have hbestle : score best ≤ score (pickBest score best ms) := hall best (by simp)
      cases pre with
      | nil =>
        simp only [List.nil_append] at heq
        have hcb : pickBest score best ms = best := (List.cons_eq_cons.mp heq.symm).1
        have hpost : post = ms := (List.cons_eq_cons.mp heq.symm).2
        refine ⟨[], m :: ms, by simp [hcb], by simp, ?_⟩
        intro x hx
        rcases List.mem_cons.mp hx with hx | hx
        · subst hx; exact hbestle
        · rcases List.mem_cons.mp hx with hx | hx
          · subst hx; exact le_trans hmb hbestle
          · exact hall x (by simp [hx])
      | cons q pre' =>
        simp only [List.cons_append] at heq
        have hqb : best = q := (List.cons_eq_cons.mp heq).1
        have hms : ms = pre' ++ pickBest score best ms :: post :=
          (List.cons_eq_cons.mp heq).2
        have hbestlt : score best < score (pickBest score best ms) := by
          have := hpre q (by simp)
          rwa [← hqb] at this
        refine ⟨best :: m :: pre', post, ?_, ?_, ?_⟩
        · rw [List.cons_append, List.cons_append, ← hms]
        · intro x hx
          rcases List.mem_cons.mp hx with hx | hx
          · subst hx; exact hbestlt
          · rcases List.mem_cons.mp hx with hx | hx
            · subst hx; exact lt_of_le_of_lt hmb hbestlt
            · exact hpre x (by simp [hx])
        · intro x hx
          rcases List.mem_cons.mp hx with hx | hx
          · subst hx; exact hbestle
          · rcases List.mem_cons.mp hx with hx | hx
            · subst hx; exact le_trans hmb hbestle
            · exact hall x (by simp [hx])

/-- Membership in an if-guarded singleton list. -/
lemma mem_if_singleton (c : Bool) (x m : Move) :
    (m ∈ (if c then [x] else [])) ↔ c = true ∧ m = x := by
  cases c <;> simp

/-- Membership in getValidMoves for non-null ends: a move is returned
iff its tile is in the hand and a pip of the tile matches the end of
the chosen side. -/
lemma mem_getValidMoves (hand : List Tile) (le re : Nat) (m : Move) :
    m ∈ getValidMoves hand (some le) (some re) ↔
      m.tile ∈ hand ∧
        ((m.side = Side.left ∧ (m.tile.1 = le ∨ m.tile.2 = le)) ∨
         (m.side = Side.right ∧ (m.tile.1 = re ∨ m.tile.2 = re))) := by
  simp only [getValidMoves, List.mem_flatMap, List.mem_append, mem_if_singleton]
  constructor
  · rintro ⟨t, ht, ⟨hc, rfl⟩ | ⟨hc, rfl⟩⟩
    · simp only [Bool.or_eq_true, beq_iff_eq] at hc
      exact ⟨ht, Or.inl ⟨rfl, hc⟩⟩
    · simp only [Bool.or_eq_true, beq_iff_eq] at hc
      exact ⟨ht, Or.inr ⟨rfl, hc⟩⟩
  · rintro ⟨ht, ⟨hside, hc⟩ | ⟨hside, hc⟩⟩
    · refine ⟨m.tile, ht, Or.inl ⟨by simp [hc], ?_⟩⟩
      cases m with
      | mk tile side => simp_all
    · refine ⟨m.tile, ht, Or.inr ⟨by simp [hc], ?_⟩⟩
      cases m with
      | mk tile side => simp_all


/-- Left-side entries of getValidMoves are in bijection with the hand
tiles matching the left end, in hand order. -/
lemma left_entries_getValidMoves (hand : List Tile) (le re : Nat) :
    (getValidMoves hand (some le) (some re)).filter (fun m => m.side == Side.left) =
      (hand.filter (fun t => t.1 == le || t.2 == le)).map (fun t => (⟨t, Side.left⟩ : Move)) := by
  induction hand with
  | nil => simp [getValidMoves]
  | cons u tl ih =>
    simp only [getValidMoves] at ih ⊢
    rw [List.flatMap_cons, List.filter_append, ih, List.filter_cons]
    by_cases hl : (u.1 == le || u.2 == le) = true
    · by_cases hr : (u.1 == re || u.2 == re) = true
      · simp [hl, hr]
      · rw [Bool.not_eq_true] at hr
        simp [hl, hr]
    · rw [Bool.not_eq_true] at hl
      by_cases hr : (u.1 == re || u.2 == re) = true
      · simp [hl, hr]
      · rw [Bool.not_eq_true] at hr
        simp [hl, hr]

/-- Right-side entries of getValidMoves are in bijection with the hand
tiles matching the right end, in hand order. -/
lemma right_entries_getValidMoves (hand : List Tile) (le re : Nat) :
    (getValidMoves hand (some le) (some re)).filter (fun m => m.side == Side.right) =
      (hand.filter (fun t => t.1 == re || t.2 == re)).map (fun t => (⟨t, Side.right⟩ : Move)) := by
  induction hand with
  | nil => simp [getValidMoves]
  | cons u tl ih =>
    simp only [getValidMoves] at ih ⊢
    rw [List.flatMap_cons, List.filter_append, ih, List.filter_cons]
    by_cases hl : (u.1 == le || u.2 == le) = true
    · by_cases hr : (u.1 == re || u.2 == re) = true
      · simp [hl, hr]
      · rw [Bool.not_eq_true] at hr
        simp [hl, hr]
    · rw [Bool.not_eq_true] at hl
      by_cases hr : (u.1 == re || u.2 == re) = true
      · simp [hl, hr]
      · rw [Bool.not_eq_true] at hr
        simp [hl, hr]

/-- C4: getValidMoves with either end null returns exactly one
candidate (side left) per hand tile, not two; with both ends set it
returns exactly one left entry per hand tile matching the left end and
one right entry per hand tile matching the right end, so a dual-fit
tile appears twice, even when the two ends hold the same value; and the
result is empty iff no hand tile matches either open end. -/
theorem getValidMoves_correct (hand : List Tile) :
    (∀ re, getValidMoves hand none re = hand.map (fun t => (⟨t, Side.left⟩ : Move))) ∧
    (∀ le, getValidMoves hand (some le) none = hand.map (fun t => (⟨t, Side.left⟩ : Move))) ∧
    (∀ re, (getValidMoves hand none re).length = hand.length) ∧
    (∀ le re,
      (getValidMoves hand (some le) (some re)).filter (fun m => m.side == Side.left) =
        (hand.filter (fun t => t.1 == le || t.2 == le)).map (fun t => (⟨t, Side.left⟩ : Move)) ∧
      (getValidMoves hand (some le) (some re)).filter (fun m => m.side == Side.right) =
        (hand.filter (fun t => t.1 == re || t.2 == re)).map (fun t => (⟨t, Side.right⟩ : Move))) ∧
    (∀ le t, t ∈ hand → (t.1 = le ∨ t.2 = le) →
      (⟨t, Side.left⟩ : Move) ∈ getValidMoves hand (some le) (some le) ∧
      (⟨t, Side.right⟩ : Move) ∈ getValidMoves hand (some le) (some le)) ∧
    (∀ le re, getValidMoves hand (some le) (some re) = [] ↔
      ∀ t ∈ hand, ¬(t.1 = le ∨ t.2 = le) ∧ ¬(t.1 = re ∨ t.2 = re)) := by
  refine ⟨fun _ => rfl, fun _ => rfl, fun re => ?_, fun le re => ?_, fun le t ht hm => ?_, fun le re => ?_⟩
  · show (hand.map (fun t => (⟨t, Side.left⟩ : Move))).length = hand.length
    simp
  · exact ⟨left_entries_getValidMoves hand le re, right_entries_getValidMoves hand le re⟩
  · exact ⟨(mem_getValidMoves hand le le _).mpr ⟨ht, Or.inl ⟨rfl, hm⟩⟩,
      (mem_getValidMoves hand le le _).mpr ⟨ht, Or.inr ⟨rfl, hm⟩⟩⟩
  · constructor
    · intro hnil t ht
      constructor
      · intro hm
        have := (mem_getValidMoves hand le re ⟨t, Side.left⟩).mpr ⟨ht, Or.inl ⟨rfl, hm⟩⟩
        rw [hnil] at this
        exact absurd this (List.not_mem_nil _)
      · intro hm
        have := (mem_getValidMoves hand le re ⟨t, Side.right⟩).mpr ⟨ht, Or.inr ⟨rfl, hm⟩⟩
        rw [hnil] at this
        exact absurd this (List.not_mem_nil _)
    · intro hno
      by_contra hne
      obtain ⟨m, hm⟩ := List.exists_mem_of_ne_nil _ hne
      obtain ⟨ht, hcase⟩ := (mem_getValidMoves hand le re m).mp hm
      rcases hcase with ⟨_, hmatch⟩ | ⟨_, hmatch⟩
      · exact (hno m.tile ht).1 hmatch
      · exact (hno m.tile ht).2 hmatch

/-- Witness for getValidMoves_correct at a concrete hand: the tile
(2, 4) fits the shared end value 4 and appears once per side, and a
hand matching neither end yields the empty move list. -/
theorem getValidMoves_correct_witness :
    ((⟨(2, 4), Side.left⟩ : Move) ∈ getValidMoves [(1, 2), (2, 4)] (some 4) (some 4) ∧
     (⟨(2, 4), Side.right⟩ : Move) ∈ getValidMoves [(1, 2), (2, 4)] (some 4) (some 4)) ∧
    getValidMoves [(1, 2), (2, 4)] (some 9) (some 8) = [] :=
  ⟨(getValidMoves_correct [(1, 2), (2, 4)]).2.2.2.2.1 4 (2, 4) (by decide) (by decide),
   ((getValidMoves_correct [(1, 2), (2, 4)]).2.2.2.2.2 9 8).mpr (by decide)⟩

/-- C3: calculateBotMove returns none when there is no legal move,
returns the single legal move without scoring when exactly one exists,
and otherwise returns a legal move of maximal heuristic score, ties
broken by keeping the first-encountered move in getValidMoves order:
the enumeration decomposes around the chosen move with every earlier
move scoring strictly less and no move scoring more. -/
theorem calculateBotMove_correct (hand : List Tile) (le re : Option Nat)
    (ph : Nat → List Nat) (next : Nat) :
    (getValidMoves hand le re = [] → calculateBotMove hand le re ph next = none) ∧
    (∀ m, getValidMoves hand le re = [m] → calculateBotMove hand le re ph next = some m) ∧
    (∀ m0 m1 ms, getValidMoves hand le re = m0 :: m1 :: ms →
      ∃ chosen pre post,
        calculateBotMove hand le re ph next = some chosen ∧
        getValidMoves hand le re = pre ++ chosen :: post ∧
        (∀ m ∈ pre, botScore ph next le re m < botScore ph next le re chosen) ∧
        (∀ m ∈ getValidMoves hand le re, botScore ph next le re m ≤ botScore ph next le re chosen)) := by
  refine ⟨fun h => ?_, fun m h => ?_, fun m0 m1 ms h => ?_⟩
  · simp [calculateBotMove, h]
  · simp [calculateBotMove, h]
  · obtain ⟨pre, post, heq, hpre, hall⟩ :=
      pickBest_spec (botScore ph next le re) m0 (m1 :: ms)
    refine ⟨pickBest (botScore ph next le re) m0 (m1 :: ms), pre, post, ?_, ?_, hpre, ?_⟩
    · simp [calculateBotMove, h]
    · rw [h, heq]
    · intro m hm
      rw [h] at hm
      exact hall m hm

/-- Pass history recording that player 1 has passed on the value 2;
used by the calculateBotMove witness. -/
def blockingPassHistory : Nat → List Nat := fun j => if j = 1 then [2] else []

/-- Witness for calculateBotMove_correct: a hand with no match yields
none, a single-move hand returns that move without scoring, and among
four legal moves the one exposing the value the next player passed on
(plus-25 bonus) is selected. -/
theorem calculateBotMove_correct_witness :
    calculateBotMove [(1, 2)] (some 9) (some 8) emptyPassHistory 1 = none ∧
    calculateBotMove [(9, 2)] (some 9) (some 8) emptyPassHistory 1 = some ⟨(9, 2), Side.left⟩ ∧
    calculateBotMove [(9, 2), (9, 4), (4, 4)] (some 9) (some 4) blockingPassHistory 1 =
      some ⟨(9, 2), Side.left⟩ := by
  refine ⟨(calculateBotMove_correct [(1, 2)] (some 9) (some 8) emptyPassHistory 1).1 (by decide),
    (calculateBotMove_correct [(9, 2)] (some 9) (some 8) emptyPassHistory 1).2.1
      ⟨(9, 2), Side.left⟩ (by decide), ?_⟩
  obtain ⟨chosen, pre, post, h1, h2, h3, h4⟩ :=
    (calculateBotMove_correct [(9, 2), (9, 4), (4, 4)] (some 9) (some 4)
        blockingPassHistory 1).2.2
      ⟨(9, 2), Side.left⟩ ⟨(9, 4), Side.left⟩
      [⟨(9, 4), Side.right⟩, ⟨(4, 4), Side.right⟩] (by decide)
  have hch : chosen = ⟨(9, 2), Side.left⟩ :=
    Option.some.inj (h1.symm.trans (by decide))
  exact h1.trans (congrArg some hch)

/-- Folding the calculateScores step over a player list adds the team
pip totals of the list to the accumulator componentwise, provided every
team index is 0 or 1. -/
lemma calculateScores_foldl (players : List Player) (acc : Nat × Nat)
    (hteams : ∀ p ∈ players, p.team = 0 ∨ p.team = 1) :
    players.foldl (fun acc p =>
      let pips := handPips p.hand
      if p.team = 0 then (acc.1 + pips, acc.2) else (acc.1, acc.2 + pips)) acc =
    (acc.1 + ((players.filter (fun p => p.team == 0)).map (fun p => handPips p.hand)).sum,
     acc.2 + ((players.filter (fun p => p.team == 1)).map (fun p => handPips p.hand)).sum) := by
  induction players generalizing acc with
  | nil => simp
  | cons q qs ih =>
    rcases hteams q (by simp) with hq | hq
    · rw [List.foldl_cons]
      simp only [hq, if_pos rfl]
      rw [ih _ (fun p hp => hteams p (by simp [hp]))]
      rw [List.filter_cons, List.filter_cons]
      simp [hq]
      omega
    · rw [List.foldl_cons]
      have hq0 : ¬ q.team = 0 := by omega
      simp only [if_neg hq0]
      rw [ih _ (fun p hp => hteams p (by simp [hp]))]
      rw [List.filter_cons, List.filter_cons]
      simp [hq, hq0]
      omega

/-- C6: calculateScores returns, per team, the sum of tile pip sums
over the hands of the players of that team; and handleRoundEnd stores
as the winner points the losing team total: team 1 total when team 0
wins and team 0 total when team 1 wins. -/
theorem calculateScores_correct (players : List Player) (s : GameState) (reason : Reason)
    (hteams : ∀ p ∈ players, p.team = 0 ∨ p.team = 1) :
    (calculateScores players).1 =
      ((players.filter (fun p => p.team == 0)).map (fun p => handPips p.hand)).sum ∧
    (calculateScores players).2 =
      ((players.filter (fun p => p.team == 1)).map (fun p => handPips p.hand)).sum ∧
    (handleRoundEnd s reason 0).winner = some ⟨0, reason, (calculateScores s.players).2⟩ ∧
    (handleRoundEnd s reason 1).winner = some ⟨1, reason, (calculateScores s.players).1⟩ := by
  have h := calculateScores_foldl players (0, 0) hteams
  refine ⟨?_, ?_, ?_, ?_⟩
  · rw [calculateScores, h]
    simp
  · rw [calculateScores, h]
    simp
  · simp [handleRoundEnd]
  · simp [handleRoundEnd]

/-- State used by the calculateScores witness. -/
def scoresState : GameState :=
  { players := [⟨0, "You", false, [(1, 2)], 0⟩, ⟨1, "B1", true, [(3, 4), (0, 0)], 1⟩,
                ⟨2, "B2", true, [(5, 5)], 0⟩, ⟨3, "B3", true, [(2, 2)], 1⟩]
    board := [(1, 1)]
    boneyard := []
    leftEnd := some 1
    rightEnd := some 1
    currentPlayerIndex := 0
    status := Status.playing
    logs := []
    winner := none
    passHistory := emptyPassHistory }

/-- Witness for calculateScores_correct: team 0 holds 3 + 10 = 13 pips,
team 1 holds 7 + 4 = 11 pips, and a team-0 win records the team-1
total as points. -/
theorem calculateScores_correct_witness :
    (calculateScores scoresState.players).1 = 13 ∧
    (calculateScores scoresState.players).2 = 11 ∧
    (handleRoundEnd scoresState Reason.domino 0).winner =
      some ⟨0, Reason.domino, (calculateScores scoresState.players).2⟩ := by
  have h := calculateScores_correct scoresState.players scoresState Reason.domino (by decide)
  exact ⟨h.1.trans (by decide), h.2.1.trans (by decide), h.2.2.1⟩

/-- C10: handlePass leaves every hand, the board, both open ends, the
boneyard, the status and the winner record unchanged; it advances the
turn pointer counter-clockwise, appends exactly one log entry, and
appends to the passing player pass history exactly the current open
end values, the right end only when distinct from the left end and
nothing at all when both ends are null. -/
theorem handlePass_frame_effect (s : GameState) (p : Player) :
    (handlePass s p).players = s.players ∧
    (handlePass s p).board = s.board ∧
    (handlePass s p).leftEnd = s.leftEnd ∧
    (handlePass s p).rightEnd = s.rightEnd ∧
    (handlePass s p).boneyard = s.boneyard ∧
    (handlePass s p).status = s.status ∧
    (handlePass s p).winner = s.winner ∧
    (handlePass s p).currentPlayerIndex = (s.currentPlayerIndex + 3) % 4 ∧
    (handlePass s p).logs.length = s.logs.length + 1 ∧
    (handlePass s p).passHistory p.id = s.passHistory p.id ++ missedEnds s ∧
    (∀ j, j ≠ p.id → (handlePass s p).passHistory j = s.passHistory j) ∧
    (s.leftEnd = none → s.rightEnd = none →
      (handlePass s p).passHistory p.id = s.passHistory p.id) ∧
    (∀ le re, s.leftEnd = some le → s.rightEnd = some re → le ≠ re →
      (handlePass s p).passHistory p.id = s.passHistory p.id ++ [le, re]) ∧
    (∀ le, s.leftEnd = some le → s.rightEnd = some le →
      (handlePass s p).passHistory p.id = s.passHistory p.id ++ [le]) := by
  refine ⟨rfl, rfl, rfl, rfl, rfl, rfl, rfl, rfl, by simp [handlePass], by simp [handlePass],
    ?_, ?_, ?_, ?_⟩
  · intro j hj
    simp [handlePass, hj]
  · intro hl hr
    simp [handlePass, missedEnds, hl, hr]
  · intro le re hl hr hne
    simp [handlePass, missedEnds, hl, hr, hne]
  · intro le hl hr
    simp [handlePass, missedEnds, hl, hr]

/-- State used by the handlePass witness: distinct open ends 2 and 5. -/
def passState : GameState :=
  { players := [⟨0, "You", false, [(1, 1)], 0⟩, ⟨1, "B1", true, [(3, 4)], 1⟩,
                ⟨2, "B2", true, [(5, 5)], 0⟩, ⟨3, "B3", true, [(2, 2)], 1⟩]
    board := [(2, 5)]
    boneyard := []
    leftEnd := some 2
    rightEnd := some 5
    currentPlayerIndex := 0
    status := Status.playing
    logs := ["Game Started."]
    winner := none
    passHistory := emptyPassHistory }

/-- Witness for handlePass_frame_effect: passing on ends 2 and 5
records both values for the passer, touches no other pass history and
moves the turn pointer from seat 0 to seat 3. -/
theorem handlePass_frame_effect_witness :
    (handlePass passState ⟨0, "You", false, [(1, 1)], 0⟩).board = passState.board ∧
    (handlePass passState ⟨0, "You", false, [(1, 1)], 0⟩).currentPlayerIndex = 3 ∧
    (handlePass passState ⟨0, "You", false, [(1, 1)], 0⟩).passHistory 0 = [2, 5] ∧
    (handlePass passState ⟨0, "You", false, [(1, 1)], 0⟩).passHistory 1 = [] := by
  obtain ⟨h1, h2, h3, h4, h5, h6, h7, h8, h9, h10, h11, h12, h13, h14⟩ :=
    handlePass_frame_effect passState ⟨0, "You", false, [(1, 1)], 0⟩
  refine ⟨h2, h8.trans (by decide), ?_, ?_⟩
  · have := h13 2 5 rfl rfl (by decide)
    simpa [passState, emptyPassHistory] using this
  · have := h11 1 (by decide)
    simpa [passState, emptyPassHistory] using this

/-- A tile equals the double (v, v) as an unordered pair iff it is
literally (v, v). -/
lemma areTilesEqual_double (t : Tile) (v : Nat) :
    areTilesEqual t (v, v) = true ↔ t = (v, v) := by
  cases t with
  | mk a b => simp [areTilesEqual, Prod.ext_iff]

/-- findDoubleHolder misses when no listed player holds the double. -/
lemma findDoubleHolder_none (players : List Player) (idx v : Nat)
    (h : ∀ p ∈ players, (v, v) ∉ p.hand) :
    findDoubleHolder players idx v = none := by
  induction players generalizing idx with
  | nil => rfl
  | cons p ps ih =>
    have hany : p.hand.any (fun t => areTilesEqual t (v, v)) = false := by
      rw [Bool.eq_false_iff]
      intro hc
      rw [List.any_eq_true] at hc
      obtain ⟨t, ht, heqt⟩ := hc
      rw [areTilesEqual_double] at heqt
      exact h p (by simp) (heqt ▸ ht)
    simp only [findDoubleHolder, hany, Bool.false_eq_true, if_false]
    exact ih (idx + 1) (fun q hq => h q (by simp [hq]))

/-- findDoubleHolder returns the first seat holding the double, offset
by the running index, together with the double itself. -/
lemma findDoubleHolder_found (players : List Player) (v : Nat) :
    ∀ (s idx : Nat), s < players.length →
    (v, v) ∈ (players.getD s dfltPlayer).hand →
    (∀ j < s, (v, v) ∉ (players.getD j dfltPlayer).hand) →
    findDoubleHolder players idx v = some (idx + s, (v, v)) := by
  induction players with
  | nil =>
    intro s idx hs
    simp at hs
  | cons p ps ih =>
    intro s idx hs hmem hfirst
    cases s with
    | zero =>
      simp only [List.getD_cons_zero] at hmem
      have hany : p.hand.any (fun t => areTilesEqual t (v, v)) = true := by
        rw [List.any_eq_true]
        exact ⟨(v, v), hmem, by simp [areTilesEqual]⟩
      have hfind : p.hand.find? (fun t => areTilesEqual t (v, v)) = some (v, v) := by
        cases hf : p.hand.find? (fun t => areTilesEqual t (v, v)) with
        | none =>
          rw [List.find?_eq_none] at hf
          exact absurd (by simp [areTilesEqual] : areTilesEqual (v, v) (v, v) = true)
            (hf (v, v) hmem)
        | some t =>
          have := List.find?_some hf
          rw [areTilesEqual_double] at this
          rw [this]
      simp [findDoubleHolder, hany, hfind]
    | succ s' =>
      have hp : (v, v) ∉ p.hand := by
        have := hfirst 0 (Nat.succ_pos _)
        simpa using this
      have hany : p.hand.any (fun t => areTilesEqual t (v, v)) = false := by
        rw [Bool.eq_false_iff]
        intro hc
        rw [List.any_eq_true] at hc
        obtain ⟨t, ht, heqt⟩ := hc
        rw [areTilesEqual_double] at heqt
        exact hp (heqt ▸ ht)
      simp only [findDoubleHolder, hany, Bool.false_eq_true, if_false]
      have hrec := ih s' (idx + 1) (by simpa using hs) (by simpa using hmem)
        (fun j hj => by simpa using hfirst (j + 1) (by omega))
      rw [hrec]
      congr 2
      omega

/-- The downward double scan finds the highest held double at the first
seat holding it, provided no higher double up to the scan start is held
by anyone. -/
lemma scanDoublesFrom_finds (players : List Player) (i s : Nat)
    (hs : s < players.length)
    (hmem : (i, i) ∈ (players.getD s dfltPlayer).hand)
    (hfirst : ∀ j < s, (i, i) ∉ (players.getD j dfltPlayer).hand) :
    ∀ n, i ≤ n →
    (∀ j, i < j → j ≤ n → ∀ p ∈ players, (j, j) ∉ p.hand) →
    scanDoublesFrom players n = some (s, (i, i)) := by
  intro n
  induction n with
  | zero =>
    intro hin _
    have hieq : i = 0 := by omega
    subst hieq
    have := findDoubleHolder_found players 0 s 0 hs hmem hfirst
    simpa [scanDoublesFrom] using this
  | succ n ihn =>
    intro hin hhi
    by_cases hii : i = n + 1
    · subst hii
      have := findDoubleHolder_found players (n + 1) s 0 hs hmem hfirst
      simp [scanDoublesFrom, this]
    · have hi' : i ≤ n := by omega
      have hnone : findDoubleHolder players 0 (n + 1) = none :=
        findDoubleHolder_none players 0 (n + 1)
          (fun p hp => hhi (n + 1) (by omega) (le_refl _) p hp)
      simp only [scanDoublesFrom, hnone]
      exact ihn hi' (fun j h1 h2 p hp => hhi j h1 (by omega) p hp)

/-- When no player holds any double the scan comes up empty. -/
lemma scanDoublesFrom_none (players : List Player)
    (h : ∀ p ∈ players, ∀ t ∈ p.hand, isDouble t = false) :
    ∀ n, scanDoublesFrom players n = none := by
  have hnod : ∀ v idx, findDoubleHolder players idx v = none := by
    intro v idx
    apply findDoubleHolder_none
    intro p hp hmem
    have := h p hp (v, v) hmem
    simp [isDouble] at this
  intro n
  induction n with
  | zero => simpa [scanDoublesFrom] using hnod 0 0
  | succ n ihn => simp [scanDoublesFrom, hnod (n + 1) 0, ihn]

/-- Scan order of the fallback branch: seats in order, and within each
seat the hand in order. -/
def seatTiles (players : List Player) : List (Nat × Tile) :=
  players.enum.flatMap (fun pr => pr.2.hand.map (fun t => (pr.1, t)))

/-- One comparison step of the fallback scan. -/
def fallbackStep (acc : Int × Nat × Tile) (st : Nat × Tile) : Int × Nat × Tile :=
  if (getTileSum st.2 : Int) > acc.1 then ((getTileSum st.2 : Int), st.1, st.2) else acc

/-- The nested forEach of the fallback branch equals a single fold over
the flattened seat-tile scan order. -/
lemma foldl_enum_flat (l : List (Nat × Player)) (init : Int × Nat × Tile) :
    l.foldl (fun acc pr => pr.2.hand.foldl (fun acc t =>
      if (getTileSum t : Int) > acc.1 then ((getTileSum t : Int), pr.1, t) else acc) acc) init =
    (l.flatMap (fun pr => pr.2.hand.map (fun t => (pr.1, t)))).foldl fallbackStep init := by
  induction l generalizing init with
  | nil => rfl
  | cons pr rest ih =>
    rw [List.foldl_cons, List.flatMap_cons, List.foldl_append, List.foldl_map]
    exact ih _

/-- highestFallback through the flattened scan order. -/
lemma highestFallback_eq_scan (players : List Player) :
    highestFallback players =
      (((seatTiles players).foldl fallbackStep ((-1 : Int), 0, ((0 : Nat), (0 : Nat)))).2.1,
       ((seatTiles players).foldl fallbackStep ((-1 : Int), 0, ((0 : Nat), (0 : Nat)))).2.2) := by
  unfold highestFallback seatTiles
  rw [foldl_enum_flat]

/-- fallbackStep takes the new entry when its sum strictly exceeds the
running maximum. -/
lemma fallbackStep_take (acc : Int × Nat × Tile) (st : Nat × Tile)
    (h : acc.1 < (getTileSum st.2 : Int)) :
    fallbackStep acc st = ((getTileSum st.2 : Int), st.1, st.2) := by
  unfold fallbackStep
  exact if_pos h

/-- During the strictly-smaller phase the running maximum stays below
the target sum. -/
lemma fallback_phaseA (A : List (Nat × Tile)) (m : Nat) :
    ∀ acc : Int × Nat × Tile, acc.1 < (m : Int) →
    (∀ st ∈ A, getTileSum st.2 < m) →
    (A.foldl fallbackStep acc).1 < (m : Int) := by
  induction A with
  | nil => intro acc hacc _; exact hacc
  | cons st rest ih =>
    intro acc hacc hA
    rw [List.foldl_cons]
    apply ih
    · unfold fallbackStep
      split
      · have := hA st (by simp)
        simp only []
        omega
      · exact hacc
    · intro u hu
      exact hA u (by simp [hu])

/-- Once the running maximum has reached a value at least every
remaining sum, the accumulator never changes again. -/
lemma fallback_phaseB (B : List (Nat × Tile)) :
    ∀ acc : Int × Nat × Tile,
    (∀ st ∈ B, (getTileSum st.2 : Int) ≤ acc.1) →
    B.foldl fallbackStep acc = acc := by
  induction B with
  | nil => intro acc _; rfl
  | cons st rest ih =>
    intro acc hB
    rw [List.foldl_cons]
    have hstep : fallbackStep acc st = acc := by
      unfold fallbackStep
      rw [if_neg]
      have := hB st (by simp)
      omega
    rw [hstep]
    exact ih acc (fun u hu => hB u (by simp [hu]))

/-- C5: determineStarter scans doubles from (9, 9) down to (0, 0) and
for each double checks seats in order 0, 1, 2, 3, returning the first
seat holding the double together with that double; when no hand holds
any double it falls back to the single highest-pip-sum tile across all
hands in scan order, a strict comparison keeping the first-found tile
on ties. -/
theorem determineStarter_correct :
    (∀ (players : List Player) (boneyard : List Tile) (i s : Nat), i ≤ 9 →
      s < players.length →
      (i, i) ∈ (players.getD s dfltPlayer).hand →
      (∀ j < s, (i, i) ∉ (players.getD j dfltPlayer).hand) →
      (∀ j < 10, i < j → ∀ p ∈ players, (j, j) ∉ p.hand) →
      determineStarter players boneyard = (s, (i, i))) ∧
    (∀ (players : List Player) (boneyard : List Tile) (k : Nat) (t : Tile)
        (A B : List (Nat × Tile)),
      (∀ p ∈ players, ∀ u ∈ p.hand, isDouble u = false) →
      seatTiles players = A ++ (k, t) :: B →
      (∀ st ∈ A, getTileSum st.2 < getTileSum t) →
      (∀ st ∈ B, getTileSum st.2 ≤ getTileSum t) →
      determineStarter players boneyard = (k, t)) := by
  constructor
  · intro players boneyard i s hi hs hmem hfirst hhigher
    have hscan := scanDoublesFrom_finds players i s hs hmem hfirst 9 hi
      (fun j h1 h2 p hp => hhigher j (by omega) h1 p hp)
    simp [determineStarter, hscan]
  · intro players boneyard k t A B hnod hsplit hA hB
    have hscan := scanDoublesFrom_none players hnod 9
    have hfold : ((seatTiles players).foldl fallbackStep
        ((-1 : Int), 0, ((0 : Nat), (0 : Nat)))) = ((getTileSum t : Int), k, t) := by
      rw [hsplit, List.foldl_append, List.foldl_cons]
      have hA' : (A.foldl fallbackStep ((-1 : Int), 0, ((0 : Nat), (0 : Nat)))).1 <
          (getTileSum t : Int) := by
        apply fallback_phaseA A (getTileSum t) _ (by omega) hA
      rw [fallbackStep_take _ _ hA']
      exact fallback_phaseB B _ (fun u hu => by
        have := hB u hu
        dsimp only
        omega)
    have hd : determineStarter players boneyard = highestFallback players := by
      unfold determineStarter
      rw [hscan]
    rw [hd, highestFallback_eq_scan, hfold]

/-- Witness for determineStarter_correct: seat 1 holds the highest
double (7, 7) and starts with it; with no doubles anywhere the single
heaviest tile (4, 5) of seat 0 wins over the equally heavy later
(5, 4). -/
theorem determineStarter_correct_witness :
    determineStarter [⟨0, "You", false, [(1, 2)], 0⟩, ⟨1, "B1", true, [(7, 7), (3, 3)], 1⟩,
        ⟨2, "B2", true, [(9, 8)], 0⟩, ⟨3, "B3", true, [], 1⟩] [] = (1, (7, 7)) ∧
    determineStarter [⟨0, "You", false, [(1, 2), (4, 5)], 0⟩, ⟨1, "B1", true, [(5, 4)], 1⟩] [] =
      (0, (4, 5)) :=
  ⟨determineStarter_correct.1 _ [] 7 1 (by decide) (by decide) (by decide) (by decide)
    (by decide),
   determineStarter_correct.2 _ [] 0 (4, 5) [(0, (1, 2))] [(1, (5, 4))] (by decide)
    (by decide) (by decide) (by decide)⟩

/-- Extending a chain on the open front with a tile matching the front
value keeps it a chain; the new front value is the other pip of the
tile (computed exactly as applyMove computes the new left end). -/
lemma chainB_cons (l r : Nat) (t : Tile) (board : List Tile)
    (hc : chainB l board r = true) (hm : t.1 = l ∨ t.2 = l) :
    chainB (if t.1 = l then t.2 else t.1) (t :: board) r = true := by
  cases board with
  | nil => simp [chainB] at hc
  | cons u rest =>
    by_cases h1 : t.1 = l
    · rw [if_pos h1]
      show chainB t.2 (t :: u :: rest) r = true
      have : chainB t.2 (t :: u :: rest) r =
          (t.1 == t.2 && chainB t.2 (u :: rest) r || (t.2 == t.2 && chainB t.1 (u :: rest) r)) := rfl
      rw [this, Bool.or_eq_true, Bool.and_eq_true, Bool.and_eq_true]
      right
      exact ⟨by simp, by rw [h1]; exact hc⟩
    · have h2 : t.2 = l := hm.resolve_left h1
      rw [if_neg h1]
      show chainB t.1 (t :: u :: rest) r = true
      have : chainB t.1 (t :: u :: rest) r =
          (t.1 == t.1 && chainB t.2 (u :: rest) r || (t.2 == t.1 && chainB t.1 (u :: rest) r)) := rfl
      rw [this, Bool.or_eq_true, Bool.and_eq_true, Bool.and_eq_true]
      left
      exact ⟨by simp, by rw [h2]; exact hc⟩

/-- A single tile matching a value forms a chain from that value to its
other pip. -/
lemma chainB_single (r : Nat) (t : Tile) (hm : t.1 = r ∨ t.2 = r) :
    chainB r [t] (if t.1 = r then t.2 else t.1) = true := by
  by_cases h1 : t.1 = r
  · simp [chainB, h1]
  · have h2 : t.2 = r := hm.resolve_left h1
    simp [chainB, h1, h2]

/-- Extending a chain on the open back with a tile matching the back
value keeps it a chain; the new back value is the other pip of the
tile (computed exactly as applyMove computes the new right end). -/
lemma chainB_snoc (r : Nat) (t : Tile) (hm : t.1 = r ∨ t.2 = r) :
    ∀ (board : List Tile) (l : Nat), chainB l board r = true →
      chainB l (board ++ [t]) (if t.1 = r then t.2 else t.1) = true := by
  intro board
  induction board with
  | nil => intro l hc; simp [chainB] at hc
  | cons u rest ih =>
    intro l hc
    cases rest with
    | nil =>
      have hc' : (u.1 == l && u.2 == r || (u.1 == r && u.2 == l)) = true := hc
      rw [Bool.or_eq_true, Bool.and_eq_true, Bool.and_eq_true] at hc'
      show chainB l (u :: [t]) (if t.1 = r then t.2 else t.1) = true
      have hgoal : chainB l (u :: [t]) (if t.1 = r then t.2 else t.1) =
          (u.1 == l && chainB u.2 [t] (if t.1 = r then t.2 else t.1) ||
           (u.2 == l && chainB u.1 [t] (if t.1 = r then t.2 else t.1))) := rfl
      rw [hgoal, Bool.or_eq_true, Bool.and_eq_true, Bool.and_eq_true]
      rcases hc' with ⟨hu1, hu2⟩ | ⟨hu1, hu2⟩
      · left
        refine ⟨hu1, ?_⟩
        have h2 : u.2 = r := by simpa using hu2
        rw [h2]
        exact chainB_single r t hm
      · right
        refine ⟨hu2, ?_⟩
        have h1 : u.1 = r := by simpa using hu1
        rw [h1]
        exact chainB_single r t hm
    | cons v rest' =>
      have hc' : (u.1 == l && chainB u.2 (v :: rest') r ||
          (u.2 == l && chainB u.1 (v :: rest') r)) = true := hc
      rw [Bool.or_eq_true, Bool.and_eq_true, Bool.and_eq_true] at hc'
      show chainB l (u :: (v :: rest' ++ [t])) (if t.1 = r then t.2 else t.1) = true
      have hgoal : chainB l (u :: (v :: rest' ++ [t])) (if t.1 = r then t.2 else t.1) =
          (u.1 == l && chainB u.2 (v :: rest' ++ [t]) (if t.1 = r then t.2 else t.1) ||
           (u.2 == l && chainB u.1 (v :: rest' ++ [t]) (if t.1 = r then t.2 else t.1))) := rfl
      rw [hgoal, Bool.or_eq_true, Bool.and_eq_true, Bool.and_eq_true]
      rcases hc' with ⟨hu1, hu2⟩ | ⟨hu1, hu2⟩
      · left
        exact ⟨hu1, ih u.2 hu2⟩
      · right
        exact ⟨hu1, ih u.1 hu2⟩

/-- find? by id commutes with mapping an id-preserving function. -/
lemma find?_map_id_preserving (l : List Player) (pid : Nat) (f : Player → Player)
    (hf : ∀ p, (f p).id = p.id) :
    (l.map f).find? (fun q => q.id == pid) = (l.find? (fun q => q.id == pid)).map f := by
  induction l with
  | nil => rfl
  | cons a tl ih =>
    rw [List.map_cons]
    by_cases h : (a.id == pid) = true
    · rw [@List.find?_cons_of_pos _ (fun q => q.id == pid) (f a) (tl.map f)
        (by show ((f a).id == pid) = true; rw [hf a]; exact h),
        @List.find?_cons_of_pos _ (fun q => q.id == pid) a tl h]
      rfl
    · rw [@List.find?_cons_of_neg _ (fun q => q.id == pid) (f a) (tl.map f)
        (by show ¬ ((f a).id == pid) = true; rw [hf a]; exact h),
        @List.find?_cons_of_neg _ (fun q => q.id == pid) a tl h]
      exact ih

/-- getD after map, for an in-bounds index. -/
lemma getD_map_players (l : List Player) (f : Player → Player) (i : Nat) (h : i < l.length) :
    (l.map f).getD i dfltPlayer = f (l.getD i dfltPlayer) := by
  rw [List.getD_eq_getElem?_getD, List.getD_eq_getElem?_getD, List.getElem?_map,
    List.getElem?_eq_getElem h]
  rfl

/-- C1 (amended): a legal play by the acting player removes exactly the
played tile from that hand (one tile fewer, no copy left), leaves every
other player, the boneyard, the status, the pass history and the winner
record unchanged, prepends the tile to the board and updates only the
left end on a left play (symmetrically appends and updates only the
right end on a right play); the updated end receives the other pip of
the played tile, which differs from the matched end except when the
tile is a double, and the board chain invariant is preserved. -/
theorem applyMove_frame_effect
    (s : GameState) (p : Player) (tile : Tile) (side : Side) (le re : Nat)
    (hstatus : s.status = Status.playing)
    (hfind : s.players.find? (fun q => q.id == p.id) = some p)
    (hactive : p.id = s.currentPlayerIndex)
    (hle : s.leftEnd = some le) (hre : s.rightEnd = some re)
    (honce : p.hand.countP (fun t => areTilesEqual t tile) = 1)
    (hchain : chainB le s.board re = true)
    (hlegal : (⟨tile, side⟩ : Move) ∈ getValidMoves p.hand s.leftEnd s.rightEnd) :
    ((applyMove s p.id tile side).players.find? (fun q => q.id == p.id)).getD dfltPlayer =
      { p with hand := p.hand.filter (fun t => !areTilesEqual t tile) } ∧
    (p.hand.filter (fun t => !areTilesEqual t tile)).length + 1 = p.hand.length ∧
    (p.hand.filter (fun t => !areTilesEqual t tile)).countP (fun t => areTilesEqual t tile) = 0 ∧
    (∀ i, i < s.players.length → (s.players.getD i dfltPlayer).id ≠ p.id →
      (applyMove s p.id tile side).players.getD i dfltPlayer = s.players.getD i dfltPlayer) ∧
    (applyMove s p.id tile side).boneyard = s.boneyard ∧
    (applyMove s p.id tile side).status = s.status ∧
    (applyMove s p.id tile side).passHistory = s.passHistory ∧
    (applyMove s p.id tile side).winner = s.winner ∧
    (side = Side.left →
      (applyMove s p.id tile side).board = tile :: s.board ∧
      (applyMove s p.id tile side).rightEnd = s.rightEnd ∧
      (applyMove s p.id tile side).leftEnd = some (if tile.1 = le then tile.2 else tile.1) ∧
      chainB (if tile.1 = le then tile.2 else tile.1) (tile :: s.board) re = true) ∧
    (side = Side.right →
      (applyMove s p.id tile side).board = s.board ++ [tile] ∧
      (applyMove s p.id tile side).leftEnd = s.leftEnd ∧
      (applyMove s p.id tile side).rightEnd = some (if tile.1 = re then tile.2 else tile.1) ∧
      chainB le (s.board ++ [tile]) (if tile.1 = re then tile.2 else tile.1) = true) := by
  have hplayers : (applyMove s p.id tile side).players =
      s.players.map (fun q => if q.id == p.id then
        { q with hand := p.hand.filter (fun t => !areTilesEqual t tile) } else q) := by
    cases side <;> simp only [applyMove, hfind, Option.getD_some]
  have hf_id : ∀ q : Player, ((fun q => if q.id == p.id then
      { q with hand := p.hand.filter (fun t => !areTilesEqual t tile) } else q) q).id = q.id := by
    intro q
    by_cases h : (q.id == p.id) = true <;> simp [h]
  refine ⟨?_, ?_, ?_, ?_, ?_, ?_, ?_, ?_, ?_, ?_⟩
  · rw [hplayers, find?_map_id_preserving s.players p.id _ hf_id, hfind]
    simp
  · have := length_filter_not_add_countP p.hand (fun t => areTilesEqual t tile)
    omega
  · exact countP_filter_not p.hand (fun t => areTilesEqual t tile)
  · intro i hi hne
    rw [hplayers, getD_map_players _ _ _ hi]
    have hfalse : ((s.players.getD i dfltPlayer).id == p.id) = false := by
      simpa using hne
    simp only [hfalse, Bool.false_eq_true, if_false]
  · cases side <;> rfl
  · cases side <;> rfl
  · cases side <;> rfl
  · cases side <;> rfl
  · intro hsl
    subst hsl
    rw [hle, hre] at hlegal
    obtain ⟨htm, hcase⟩ := (mem_getValidMoves p.hand le re _).mp hlegal
    have hm : tile.1 = le ∨ tile.2 = le := by
      rcases hcase with ⟨_, hm⟩ | ⟨habs, _⟩
      · exact hm
      · exact absurd habs (by simp)
    refine ⟨rfl, rfl, ?_, chainB_cons le re tile s.board hchain hm⟩
    have hend : (applyMove s p.id tile Side.left).leftEnd =
        (match s.leftEnd with
         | some le' => if tile.1 = le' then some tile.2
             else if tile.2 = le' then some tile.1 else some le'
         | none => none) := rfl
    rw [hend, hle]
    by_cases h1 : tile.1 = le
    · simp [h1]
    · have h2 : tile.2 = le := hm.resolve_left h1
      simp [h1, h2]
  · intro hsr
    subst hsr
    rw [hle, hre] at hlegal
    obtain ⟨htm, hcase⟩ := (mem_getValidMoves p.hand le re _).mp hlegal
    have hm : tile.1 = re ∨ tile.2 = re := by
      rcases hcase with ⟨habs, _⟩ | ⟨_, hm⟩
      · exact absurd habs (by simp)
      · exact hm
    refine ⟨rfl, rfl, ?_, chainB_snoc re tile hm s.board le hchain⟩
    have hend : (applyMove s p.id tile Side.right).rightEnd =
        (match s.rightEnd with
         | some re' => if tile.1 = re' then some tile.2
             else if tile.2 = re' then some tile.1 else some re'
         | none => none) := rfl
    rw [hend, hre]
    by_cases h1 : tile.1 = re
    · simp [h1]
    · have h2 : tile.2 = re := hm.resolve_left h1
      simp [h1, h2]

/-- State used by the applyMove witness: seat 0 is active, the board is
the single tile (5, 3) with open ends 5 and 3, and seat 0 holds the
matching tile (5, 9). -/
def playState : GameState :=
  { players := [⟨0, "You", false, [(5, 9), (1, 1)], 0⟩, ⟨1, "B1", true, [(2, 3)], 1⟩,
                ⟨2, "B2", true, [(3, 4)], 0⟩, ⟨3, "B3", true, [(4, 6)], 1⟩]
    board := [(5, 3)]
    boneyard := [(0, 0)]
    leftEnd := some 5
    rightEnd := some 3
    currentPlayerIndex := 0
    status := Status.playing
    logs := []
    winner := none
    passHistory := emptyPassHistory }

/-- Witness for applyMove_frame_effect: playing (5, 9) on the left
prepends it, turns the left end into 9, leaves the right end and the
boneyard alone, and the chain stays connected. -/
theorem applyMove_frame_effect_witness :
    (applyMove playState 0 (5, 9) Side.left).board = (5, 9) :: playState.board ∧
    (applyMove playState 0 (5, 9) Side.left).leftEnd = some 9 ∧
    (applyMove playState 0 (5, 9) Side.left).rightEnd = playState.rightEnd ∧
    (applyMove playState 0 (5, 9) Side.left).boneyard = playState.boneyard ∧
    chainB 9 ((5, 9) :: playState.board) 3 = true := by
  obtain ⟨h1, h2, h3, h4, h5, h6, h7, h8, hL, hR⟩ :=
    applyMove_frame_effect playState ⟨0, "You", false, [(5, 9), (1, 1)], 0⟩ (5, 9) Side.left 5 3
      rfl (by decide) rfl rfl rfl (by decide) (by decide) (by decide)
  obtain ⟨hb, hr, hl, hchain⟩ := hL rfl
  exact ⟨hb, by rw [hl]; decide, hr, h5, by simpa using hchain⟩

/-- State refuting the literal open-end clause of the play claim: seat
0 is active with the double (5, 5) in hand and the left end is 5. -/
def doubleState : GameState :=
  { players := [⟨0, "You", false, [(5, 5), (1, 2)], 0⟩, ⟨1, "B1", true, [(2, 3)], 1⟩,
                ⟨2, "B2", true, [(3, 4)], 0⟩, ⟨3, "B3", true, [(4, 6)], 1⟩]
    board := [(5, 3)]
    boneyard := [(0, 0)]
    leftEnd := some 5
    rightEnd := some 3
    currentPlayerIndex := 0
    status := Status.playing
    logs := []
    winner := none
    passHistory := emptyPassHistory }

/-- Counterexample to C1 as stated: the claim says the updated open end
receives the pip value of the played tile that is not equal to the
matched end; playing the legal double (5, 5) on the matched left end 5
writes 5 back, so the updated end equals the matched end and no open
end changes value. -/
theorem applyMove_double_counterexample :
    doubleState.status = Status.playing ∧
    doubleState.currentPlayerIndex = 0 ∧
    ((5, 5) ∈ (doubleState.players.getD 0 dfltPlayer).hand) ∧
    ((⟨(5, 5), Side.left⟩ : Move) ∈
      getValidMoves (doubleState.players.getD 0 dfltPlayer).hand
        doubleState.leftEnd doubleState.rightEnd) ∧
    doubleState.leftEnd = some 5 ∧
    (applyMove doubleState 0 (5, 5) Side.left).leftEnd = some 5 ∧
    (applyMove doubleState 0 (5, 5) Side.left).rightEnd = some 3 := by
  refine ⟨rfl, rfl, by decide, by decide, rfl, ?_, rfl⟩
  rfl

/-- One comparison step of the tranque winner scan. -/
def tranqueStep (acc : Nat × Int) (p : Player) : Nat × Int :=
  let pips := handPips p.hand
  if pips < acc.1 then (pips, (p.team : Int))
  else if pips = acc.1 then (acc.1, (p.team : Int))
  else acc

/-- tranqueWinningTeam through the named step function. -/
lemma tranqueWinningTeam_eq (players : List Player) :
    tranqueWinningTeam players = (players.foldl tranqueStep ((1000 : Nat), (-1 : Int))).2 := rfl

/-- While every scanned total strictly exceeds the target, the running
minimum stays above the target. -/
lemma tranque_phaseA (A : List Player) (m : Nat) :
    ∀ acc : Nat × Int, m < acc.1 → (∀ q ∈ A, m < handPips q.hand) →
    m < (A.foldl tranqueStep acc).1 := by
  induction A with
  | nil => intro acc hacc _; exact hacc
  | cons q rest ih =>
    intro acc hacc hA
    rw [List.foldl_cons]
    apply ih
    · unfold tranqueStep
      have hq := hA q (by simp)
      dsimp only
      split
      · exact hq
      · split
        · exact hacc
        · exact hacc
    · intro u hu
      exact hA u (by simp [hu])

/-- Once the running minimum is strictly below every remaining total,
the accumulator never changes again. -/
lemma tranque_phaseB (B : List Player) :
    ∀ acc : Nat × Int, (∀ q ∈ B, acc.1 < handPips q.hand) →
    B.foldl tranqueStep acc = acc := by
  induction B with
  | nil => intro acc _; rfl
  | cons q rest ih =>
    intro acc hB
    rw [List.foldl_cons]
    have hq := hB q (by simp)
    have hstep : tranqueStep acc q = acc := by
      unfold tranqueStep
      dsimp only
      rw [if_neg (by omega), if_neg (by omega)]
    rw [hstep]
    exact ih acc (fun u hu => hB u (by simp [hu]))

/-- tranqueStep takes the new entry when its total is strictly below
the running minimum. -/
lemma tranqueStep_take (acc : Nat × Int) (p : Player) (h : handPips p.hand < acc.1) :
    tranqueStep acc p = (handPips p.hand, (p.team : Int)) := by
  unfold tranqueStep
  dsimp only
  rw [if_pos h]

/-- The tranque scan returns the team of the unique player with the
strictly lowest pip total, for totals below the 1000 sentinel. -/
lemma tranque_scan_unique (A B : List Player) (pw : Player)
    (hlt : handPips pw.hand < 1000)
    (hA : ∀ q ∈ A, handPips pw.hand < handPips q.hand)
    (hB : ∀ q ∈ B, handPips pw.hand < handPips q.hand) :
    tranqueWinningTeam (A ++ pw :: B) = (pw.team : Int) := by
  rw [tranqueWinningTeam_eq, List.foldl_append, List.foldl_cons]
  have hAfold : handPips pw.hand < (A.foldl tranqueStep ((1000 : Nat), (-1 : Int))).1 :=
    tranque_phaseA A (handPips pw.hand) _ hlt hA
  rw [tranqueStep_take _ _ hAfold, tranque_phaseB B _ (fun u hu => hB u hu)]

/-- evaluateTurn reaches the tranque branch when the state is playing,
the current hand is non-empty, nobody has a legal move and the board is
non-empty. -/
lemma evaluateTurn_tranque (s : GameState)
    (hstatus : s.status = Status.playing)
    (hcur : (currentPlayer s).hand ≠ [])
    (hnomoves : ∀ p ∈ s.players, getValidMoves p.hand s.leftEnd s.rightEnd = [])
    (hboard : s.board ≠ []) :
    evaluateTurn s = some (Reason.tranque, tranqueWinningTeam s.players) := by
  have hany : anyValidMove s = false := by
    rw [Bool.eq_false_iff]
    intro h
    rw [anyValidMove, List.any_eq_true] at h
    obtain ⟨p, hp, hlen⟩ := h
    rw [hnomoves p hp] at hlen
    simp at hlen
  have hlen0 : ¬ ((currentPlayer s).hand.length = 0) := by
    simpa [List.length_eq_zero] using hcur
  unfold evaluateTurn
  rw [if_neg (by simp [hstatus]), if_neg hlen0, if_pos]
  rw [hany]
  simp [List.length_pos, hboard]

/-- evaluateTurn reaches the domino branch when the state is playing
and the current hand is empty. -/
lemma evaluateTurn_domino (s : GameState)
    (hstatus : s.status = Status.playing)
    (hempty : (currentPlayer s).hand = []) :
    evaluateTurn s = some (Reason.domino, ((currentPlayer s).team : Int)) := by
  unfold evaluateTurn
  rw [if_neg (by simp [hstatus]), if_pos (by simp [hempty])]

/-- Reason recorded in the winner record, when any. -/
def winnerReason (s : GameState) : Option Reason := Option.map Winner.reason s.winner

/-- C2 (amended): when status is playing, the board is non-empty, the
active hand is non-empty (otherwise the domino check fires first) and
no seat has any legal move, the round ends with reason tranque -
unconditionally, ties at the minimum included; and when additionally a
unique player holds the strictly lowest pip total (below the 1000
sentinel of the scan) the recorded winning team is that player team,
and the points are the opposing total. -/
theorem tranque_lock_correct (s : GameState)
    (hstatus : s.status = Status.playing)
    (hboard : s.board ≠ [])
    (hcur : (currentPlayer s).hand ≠ [])
    (hnomoves : ∀ p ∈ s.players, getValidMoves p.hand s.leftEnd s.rightEnd = []) :
    evaluateTurn s = some (Reason.tranque, tranqueWinningTeam s.players) ∧
    (runEvaluation s).status = Status.round_over ∧
    winnerReason (runEvaluation s) = some Reason.tranque ∧
    (∀ (A B : List Player) (pw : Player), s.players = A ++ pw :: B →
      handPips pw.hand < 1000 →
      (∀ q ∈ A, handPips pw.hand < handPips q.hand) →
      (∀ q ∈ B, handPips pw.hand < handPips q.hand) →
      (runEvaluation s).winner = some ⟨(pw.team : Int), Reason.tranque,
        if (pw.team : Int) = 0 then (calculateScores s.players).2
        else (calculateScores s.players).1⟩) := by
  have hev := evaluateTurn_tranque s hstatus hcur hnomoves hboard
  refine ⟨hev, ?_, ?_, ?_⟩
  · rw [runEvaluation, hev]
    rfl
  · rw [runEvaluation, hev]
    rfl
  · intro A B pw hsplit hlt hA hB
    have hwin : tranqueWinningTeam s.players = (pw.team : Int) := by
      rw [hsplit]
      exact tranque_scan_unique A B pw hlt hA hB
    rw [runEvaluation, hev, hwin]
    rfl

/-- State used by the tranque witness: a locked non-empty board, all
four hands non-matching, seat 0 holding the unique lowest total. -/
def lockedState : GameState :=
  { players := [⟨0, "You", false, [(5, 5)], 0⟩, ⟨1, "B1", true, [(6, 6)], 1⟩,
                ⟨2, "B2", true, [(9, 9)], 0⟩, ⟨3, "B3", true, [(6, 5)], 1⟩]
    board := [(1, 2)]
    boneyard := []
    leftEnd := some 1
    rightEnd := some 2
    currentPlayerIndex := 0
    status := Status.playing
    logs := []
    winner := none
    passHistory := emptyPassHistory }

/-- Witness for tranque_lock_correct: the lock is detected, the round
ends with reason tranque, seat 0 with 10 pips is the unique minimum,
team 0 wins and scores the opposing 12 + 11 = 23 pips. -/
theorem tranque_lock_correct_witness :
    evaluateTurn lockedState = some (Reason.tranque, 0) ∧
    (runEvaluation lockedState).status = Status.round_over ∧
    winnerReason (runEvaluation lockedState) = some Reason.tranque ∧
    (runEvaluation lockedState).winner = some ⟨0, Reason.tranque, 23⟩ := by
  obtain ⟨h1, h2, h3, h4⟩ :=
    tranque_lock_correct lockedState rfl (by decide) (by decide) (by decide)
  have h5 := h4 []
    [⟨1, "B1", true, [(6, 6)], 1⟩, ⟨2, "B2", true, [(9, 9)], 0⟩, ⟨3, "B3", true, [(6, 5)], 1⟩]
    ⟨0, "You", false, [(5, 5)], 0⟩ rfl (by decide) (by decide) (by decide)
  exact ⟨h1.trans (by decide), h2, h3, h5.trans (by decide)⟩

/-- State refuting the unconditional tranque clause: the board is
locked for all four seats but the active hand is already empty. -/
def lockedEmptyState : GameState :=
  { players := [⟨0, "You", false, [], 0⟩, ⟨1, "B1", true, [(5, 5)], 1⟩,
                ⟨2, "B2", true, [(6, 6)], 0⟩, ⟨3, "B3", true, [(6, 5)], 1⟩]
    board := [(1, 2)]
    boneyard := []
    leftEnd := some 1
    rightEnd := some 2
    currentPlayerIndex := 0
    status := Status.playing
    logs := []
    winner := none
    passHistory := emptyPassHistory }

/-- Counterexample to C2 as stated: in a playing state with a
non-empty board where no seat has any legal move, the round ends with
reason domino, not tranque, because the empty-hand check on the active
player runs first. -/
theorem tranque_priority_counterexample :
    lockedEmptyState.status = Status.playing ∧
    lockedEmptyState.board ≠ [] ∧
    anyValidMove lockedEmptyState = false ∧
    evaluateTurn lockedEmptyState = some (Reason.domino, 0) ∧
    winnerReason (runEvaluation lockedEmptyState) = some Reason.domino ∧
    winnerReason (runEvaluation lockedEmptyState) ≠ some Reason.tranque := by
  refine ⟨rfl, by decide, by decide, rfl, rfl, by decide⟩

/-- C8 (amended): the round ends with reason domino when the per-turn
evaluation runs with the active player hand empty, and the recorded
winner is that player team with the opposing pip total as points.  (A
player who empties a hand stops being active at once, so the evaluation
ends the round only when the turn pointer returns to that seat; see the
counterexample for the intervening transitions.) -/
theorem domino_ends_round (s : GameState)
    (hstatus : s.status = Status.playing)
    (hempty : (currentPlayer s).hand = []) :
    evaluateTurn s = some (Reason.domino, ((currentPlayer s).team : Int)) ∧
    (runEvaluation s).status = Status.round_over ∧
    (runEvaluation s).winner = some ⟨((currentPlayer s).team : Int), Reason.domino,
      if ((currentPlayer s).team : Int) = 0 then (calculateScores s.players).2
      else (calculateScores s.players).1⟩ := by
  have hev := evaluateTurn_domino s hstatus hempty
  refine ⟨hev, ?_, ?_⟩
  · rw [runEvaluation, hev]
    rfl
  · rw [runEvaluation, hev]
    rfl

/-- State used by the domino witness: the active seat 1 has emptied its
hand and the evaluation runs on its turn. -/
def dominoState : GameState :=
  { players := [⟨0, "You", false, [(3, 4)], 0⟩, ⟨1, "B1", true, [], 1⟩,
                ⟨2, "B2", true, [(5, 5)], 0⟩, ⟨3, "B3", true, [(6, 6)], 1⟩]
    board := [(3, 2), (2, 1)]
    boneyard := []
    leftEnd := some 3
    rightEnd := some 1
    currentPlayerIndex := 1
    status := Status.playing
    logs := []
    winner := none
    passHistory := emptyPassHistory }

/-- Witness for domino_ends_round: the round closes as a domino win for
team 1 of the active empty-handed seat 1, scoring the 7 + 10 = 17 pips
of team 0. -/
theorem domino_ends_round_witness :
    evaluateTurn dominoState = some (Reason.domino, 1) ∧
    (runEvaluation dominoState).status = Status.round_over ∧
    (runEvaluation dominoState).winner = some ⟨1, Reason.domino, 17⟩ := by
  obtain ⟨h1, h2, h3⟩ := domino_ends_round dominoState rfl (by decide)
  exact ⟨h1.trans (by decide), h2, h3.trans (by decide)⟩

/-- State preceding the domino counterexample: the active seat 1 holds
one last legal tile. -/
def preDominoState : GameState :=
  { players := [⟨0, "You", false, [(3, 4)], 0⟩, ⟨1, "B1", true, [(2, 1)], 1⟩,
                ⟨2, "B2", true, [(5, 5)], 0⟩, ⟨3, "B3", true, [(6, 6)], 1⟩]
    board := [(3, 2)]
    boneyard := []
    leftEnd := some 3
    rightEnd := some 2
    currentPlayerIndex := 1
    status := Status.playing
    logs := []
    winner := none
    passHistory := emptyPassHistory }

/-- Counterexample to C8 as stated: seat 1 legally plays its last tile,
its hand reaches zero length, yet the next evaluation does not end the
round (the next seat still has a legal move and proceeds), so a further
play or pass transition occurs between the hand emptying and the
round-over. -/
theorem domino_not_instant_counterexample :
    preDominoState.status = Status.playing ∧
    ((⟨(2, 1), Side.right⟩ : Move) ∈ getValidMoves
      (preDominoState.players.getD 1 dfltPlayer).hand
      preDominoState.leftEnd preDominoState.rightEnd) ∧
    ((applyMove preDominoState 1 (2, 1) Side.right).players.getD 1 dfltPlayer).hand = [] ∧
    (applyMove preDominoState 1 (2, 1) Side.right).status = Status.playing ∧
    evaluateTurn (applyMove preDominoState 1 (2, 1) Side.right) = none ∧
    (runEvaluation (applyMove preDominoState 1 (2, 1) Side.right)).status = Status.playing ∧
    (runEvaluation (applyMove preDominoState 1 (2, 1) Side.right)).winner = none := by
  refine ⟨rfl, by decide, by decide, by decide, by decide, by decide, by decide⟩

/-- Board and open-end fields of a left play matching the left end. -/
lemma applyMove_left_fields (s : GameState) (pid : Nat) (tile : Tile) (le : Nat)
    (hle : s.leftEnd = some le) (hm : tile.1 = le ∨ tile.2 = le) :
    (applyMove s pid tile Side.left).board = tile :: s.board ∧
    (applyMove s pid tile Side.left).rightEnd = s.rightEnd ∧
    (applyMove s pid tile Side.left).leftEnd = some (if tile.1 = le then tile.2 else tile.1) := by
  refine ⟨rfl, rfl, ?_⟩
  have hend : (applyMove s pid tile Side.left).leftEnd =
      (match s.leftEnd with
       | some le' => if tile.1 = le' then some tile.2
           else if tile.2 = le' then some tile.1 else some le'
       | none => none) := rfl
  rw [hend, hle]
  by_cases h1 : tile.1 = le
  · simp [h1]
  · simp [h1, hm.resolve_left h1]

/-- Board and open-end fields of a right play matching the right end. -/
lemma applyMove_right_fields (s : GameState) (pid : Nat) (tile : Tile) (re : Nat)
    (hre : s.rightEnd = some re) (hm : tile.1 = re ∨ tile.2 = re) :
    (applyMove s pid tile Side.right).board = s.board ++ [tile] ∧
    (applyMove s pid tile Side.right).leftEnd = s.leftEnd ∧
    (applyMove s pid tile Side.right).rightEnd = some (if tile.1 = re then tile.2 else tile.1) := by
  refine ⟨rfl, rfl, ?_⟩
  have hend : (applyMove s pid tile Side.right).rightEnd =
      (match s.rightEnd with
       | some re' => if tile.1 = re' then some tile.2
           else if tile.2 = re' then some tile.1 else some re'
       | none => none) := rfl
  rw [hend, hre]
  by_cases h1 : tile.1 = re
  · simp [h1]
  · simp [h1, hm.resolve_left h1]

/-- The freshly dealt state has a one-tile board whose pips are the two
open ends. -/
lemma startGame_fields (deck : List Tile) :
    ∃ t : Tile, (startGame deck).board = [t] ∧ (startGame deck).leftEnd = some t.1 ∧
      (startGame deck).rightEnd = some t.2 :=
  ⟨_, rfl, rfl, rfl⟩

/-- C7 (amended): in every reachable state the stored board sequence is
in spatial left-to-right order, not play order: it forms a connected
chain whose front outer pip is the stored left end and whose back outer
pip is the stored right end (left plays are prepended, right plays are
appended; only the facing of each stored tile must be reconstructed for
display). -/
theorem board_spatial_order (s : GameState) (played : List Tile)
    (h : ReachableWith s played) :
    ∃ le re, s.leftEnd = some le ∧ s.rightEnd = some re ∧ chainB le s.board re = true := by
  induction h with
  | start deck =>
    obtain ⟨t, hb, hl, hr⟩ := startGame_fields deck
    refine ⟨t.1, t.2, hl, hr, ?_⟩
    rw [hb]
    simp [chainB]
  | play s played p tile side hs hstatus hfind hactive htile hlegal ih =>
    obtain ⟨le, re, hle, hre, hchain⟩ := ih
    rw [hle, hre] at hlegal
    obtain ⟨_, hcase⟩ := (mem_getValidMoves p.hand le re _).mp hlegal
    cases side with
    | left =>
      have hm : tile.1 = le ∨ tile.2 = le := by
        rcases hcase with ⟨_, hm⟩ | ⟨habs, _⟩
        · exact hm
        · exact absurd habs (by simp)
      obtain ⟨hb, hr, hl⟩ := applyMove_left_fields s p.id tile le hle hm
      refine ⟨if tile.1 = le then tile.2 else tile.1, re, hl, by rw [hr, hre], ?_⟩
      rw [hb]
      exact chainB_cons le re tile s.board hchain hm
    | right =>
      have hm : tile.1 = re ∨ tile.2 = re := by
        rcases hcase with ⟨habs, _⟩ | ⟨_, hm⟩
        · exact absurd habs (by simp)
        · exact hm
      obtain ⟨hb, hl, hr⟩ := applyMove_right_fields s p.id tile re hre hm
      refine ⟨le, if tile.1 = re then tile.2 else tile.1, by rw [hl, hle], hr, ?_⟩
      rw [hb]
      exact chainB_snoc re tile hm s.board le hchain
  | pass s played p hs hstatus hfind hactive hnomoves hboard ih =>
    obtain ⟨le, re, hle, hre, hchain⟩ := ih
    exact ⟨le, re, hle, hre, hchain⟩

/-- Witness for board_spatial_order at the canonical-deck deal: the
start tile is (4, 4) and the one-tile board is a chain from 4 to 4. -/
theorem board_spatial_order_witness :
    chainB 4 (startGame generateDeck).board 4 = true := by
  obtain ⟨le, re, h1, h2, h3⟩ :=
    board_spatial_order (startGame generateDeck) (startGame generateDeck).board
      (ReachableWith.start generateDeck)
  have hle : le = 4 := by
    have h4 : (startGame generateDeck).leftEnd = some 4 := by decide
    rw [h1] at h4
    exact Option.some.inj h4
  have hre : re = 4 := by
    have h4 : (startGame generateDeck).rightEnd = some 4 := by decide
    rw [h2] at h4
    exact Option.some.inj h4
  subst hle
  subst hre
  exact h3

/-- Counterexample to C7 as stated: from the canonical-deck deal (start
tile (4, 4) played by seat 3, seat 2 to move) the legal left play of
(2, 4) reaches a state whose stored board is [(2, 4), (4, 4)] while the
chronological play order is [(4, 4), (2, 4)]; the stored order is the
spatial order, not the play order. -/
theorem board_play_order_counterexample :
    ReachableWith (applyMove (startGame generateDeck) 2 (2, 4) Side.left)
      ((startGame generateDeck).board ++ [(2, 4)]) ∧
    (applyMove (startGame generateDeck) 2 (2, 4) Side.left).board = [(2, 4), (4, 4)] ∧
    (startGame generateDeck).board ++ [(2, 4)] = [(4, 4), (2, 4)] ∧
    (applyMove (startGame generateDeck) 2 (2, 4) Side.left).board ≠
      (startGame generateDeck).board ++ [(2, 4)] := by
  refine ⟨?_, by decide, by decide, by decide⟩
  exact ReachableWith.play (startGame generateDeck) (startGame generateDeck).board
    ⟨2, "Bot 2 (Partner)", true,
      [(2, 3), (2, 4), (2, 5), (2, 6), (2, 7), (2, 8), (2, 9), (3, 3), (3, 4), (3, 5)], 0⟩
    (2, 4) Side.left (ReachableWith.start generateDeck) rfl (by decide) (by decide)
    (by decide) (by decide)

/-- State exhibiting the missing hand-membership validation: seat 0 is
active with hand [(1, 2)] only, the open ends are 9 and 3. -/
def notInHandState : GameState :=
  { players := [⟨0, "You", false, [(1, 2)], 0⟩, ⟨1, "B1", true, [(2, 3)], 1⟩,
                ⟨2, "B2", true, [(3, 4)], 0⟩, ⟨3, "B3", true, [(4, 6)], 1⟩]
    board := [(9, 3)]
    boneyard := []
    leftEnd := some 9
    rightEnd := some 3
    currentPlayerIndex := 0
    status := Status.playing
    logs := []
    winner := none
    passHistory := emptyPassHistory }

/-- C9 evaluated at the failing input: clicking the tile (9, 5), which
is in no hand but matches the left end 9, is not rejected: the click
handler forwards it to applyMove, which pushes it onto the board and
rewrites the left end while removing nothing from any hand.  The
illegal command mutates state instead of being rejected, and nothing is
surfaced to the caller (the logs record a successful play). -/
theorem userTileClick_not_in_hand_mutates :
    notInHandState.status = Status.playing ∧
    notInHandState.currentPlayerIndex = 0 ∧
    (notInHandState.players.getD 0 dfltPlayer).hand.countP
      (fun t => areTilesEqual t (9, 5)) = 0 ∧
    (onUserTileClick true notInHandState (9, 5)).board = [(9, 5), (9, 3)] ∧
    (onUserTileClick true notInHandState (9, 5)).leftEnd = some 5 ∧
    ((onUserTileClick true notInHandState (9, 5)).players.getD 0 dfltPlayer).hand =
      (notInHandState.players.getD 0 dfltPlayer).hand ∧
    (onUserTileClick true notInHandState (9, 5)).board ≠ notInHandState.board ∧
    (onUserTileClick true notInHandState (9, 5)).logs.length =
      notInHandState.logs.length + 1 := by
  refine ⟨rfl, rfl, by decide, by decide, by decide, by decide, by decide, by decide⟩
